import Mathlib

/-!
Verification of acme-treesitter's core algorithms against a shallow Lean
embedding of the Go source: the full-jitter backoff generator (backoff.go),
the highlight composer (style.go), the per-window session control loop
(window.go), and shebang-based language resolution (lang detection file).
-/

namespace AcmeTS

/-! ## Backoff (backoff.go, exported `Backoff` version)

`time.Duration` is Go `int64`; we model durations as unbounded `Int` and make
64-bit wrap-around explicit where the source can overflow (`b.Base << uint(exp)`).
The `attempt` counter starts at 0, is only ever incremented by `Next` and set
to 0 by `Reset`, so every reachable value is a natural number; we model it as `Nat`.
-/

/-- Wrap an unbounded integer to the signed 64-bit range, exactly as Go int64
arithmetic truncates an overflowing product. -/
def wrap64 (x : Int) : Int := (x + 2 ^ 63) % 2 ^ 64 - 2 ^ 63

/-- `Backoff` from backoff.go: full-jitter truncated exponential backoff.
Fields `Base` and `Cap` are the configured delays, `attempt` the retry count. -/
structure Backoff where
  Base : Int
  Cap : Int
  attempt : Nat
deriving DecidableEq, Repr

/-- The ceiling computed at the top of `Backoff.Next`:
`exp := min(attempt, 62)`; `ceiling := Base << exp` (64-bit, may wrap);
`if ceiling <= 0 || ceiling > Cap { ceiling = Cap }`. -/
def Backoff.nextCeiling (b : Backoff) : Int :=
  let exp := if b.attempt > 62 then 62 else b.attempt
  let ceiling := wrap64 (b.Base * 2 ^ exp)
  if ceiling ≤ 0 ∨ ceiling > b.Cap then b.Cap else ceiling

/-- `Backoff.Next`.  The source draws `rand.Int63n(int64(ceiling)+1)`, a uniform
value in `[0, ceiling]`; the draw is passed in as `r`.  Returns the slept
duration and the updated state (`b.attempt++`). -/
def Backoff.next (b : Backoff) (r : Int) : Int × Backoff :=
  let ceiling := b.nextCeiling
  let b' : Backoff := { b with attempt := b.attempt + 1 }
  if ceiling ≤ 0 then (0, b') else (r, b')

/-- `Backoff.Reset`: `b.attempt = 0`. -/
def Backoff.reset (b : Backoff) : Backoff := { b with attempt := 0 }

lemma wrap64_le {x : Int} (hx : 0 ≤ x) : wrap64 x ≤ x := by
  unfold wrap64
  have hq : (0:Int) ≤ (x + 2 ^ 63) / 2 ^ 64 :=
    Int.ediv_nonneg (by linarith [hx]) (by norm_num)
  have hd : (x + 2 ^ 63) % 2 ^ 64 = (x + 2 ^ 63) - 2 ^ 64 * ((x + 2 ^ 63) / 2 ^ 64) :=
    Int.emod_def _ _
  nlinarith [hq, hd]

lemma wrap64_eq_of_lt {x : Int} (h0 : 0 ≤ x) (h : x < 2 ^ 63) : wrap64 x = x := by
  unfold wrap64
  have : (x + 2 ^ 63) % 2 ^ 64 = x + 2 ^ 63 :=
    Int.emod_eq_of_lt (by linarith) (by linarith)
  omega

/-- With a positive in-range `Base`, the clamped ceiling never exceeds either
`Cap` or the mathematical product `Base * 2 ^ attempt`. -/
lemma nextCeiling_le (b : Backoff) (hb : 0 < b.Base) (hbc : b.Base ≤ b.Cap)
    (hc : b.Cap < 2 ^ 63) :
    b.nextCeiling ≤ b.Cap ∧ b.nextCeiling ≤ b.Base * 2 ^ b.attempt := by
  simp only [Backoff.nextCeiling]
  set e : Nat := if b.attempt > 62 then 62 else b.attempt with he
  have hee : e ≤ b.attempt := by
    rw [he]; split <;> omega
  have hxpos : 0 < b.Base * 2 ^ e := by positivity
  have hxle : b.Base * 2 ^ e ≤ b.Base * 2 ^ b.attempt := by
    have h2 : (2:Int) ^ e ≤ 2 ^ b.attempt := pow_le_pow_right₀ (by norm_num) hee
    exact mul_le_mul_of_nonneg_left h2 (le_of_lt hb)
  have hwle : wrap64 (b.Base * 2 ^ e) ≤ b.Base * 2 ^ e := wrap64_le (le_of_lt hxpos)
  split
  · -- clamped to Cap
    rename_i hcl
    refine ⟨le_refl _, ?_⟩
    rcases hcl with hneg | hover
    · -- wrapped value ≤ 0: the true product must have overflowed past 2^63
      by_cases hsmall : b.Base * 2 ^ e < 2 ^ 63
      · rw [wrap64_eq_of_lt (le_of_lt hxpos) hsmall] at hneg
        exact absurd hneg (not_le.mpr hxpos)
      · push_neg at hsmall
        calc b.Cap ≤ 2 ^ 63 := le_of_lt hc
          _ ≤ b.Base * 2 ^ e := hsmall
          _ ≤ b.Base * 2 ^ b.attempt := hxle
    · -- wrapped value exceeds Cap
      linarith [hwle, hxle]
  · -- not clamped: 0 < wrapped ≤ Cap
    rename_i hcl
    push_neg at hcl
    exact ⟨hcl.2, le_trans hwle hxle⟩

/-- After `Reset`, the next ceiling is exactly `Base` (given `0 < Base ≤ Cap`
in the int64 range). -/
lemma reset_nextCeiling (b : Backoff) (hb : 0 < b.Base) (hbc : b.Base ≤ b.Cap)
    (hc : b.Cap < 2 ^ 63) : b.reset.nextCeiling = b.Base := by
  have hlt : b.Base < 2 ^ 63 := lt_of_le_of_lt hbc hc
  have h1 : (if (0:Nat) > 62 then (62:Nat) else 0) = 0 := rfl
  simp only [Backoff.reset, Backoff.nextCeiling, h1, pow_zero, mul_one]
  rw [wrap64_eq_of_lt (le_of_lt hb) hlt,
    if_neg (by push_neg; exact ⟨hb, hbc⟩)]

/-- C5 (amended): with positive `Base ≤ Cap` (both int64-representable, as the
Go field types force) and a jitter draw `r` in the range `rand.Int63n` can
produce, `Next` returns a value in `[0, min(Cap, Base·2^attempt)]` and
increments the attempt counter; the `Next` call immediately following a
`Reset` computes its ceiling as exactly `Base`. -/
theorem backoff_next_bounds (b : Backoff) (r : Int) (hb : 0 < b.Base)
    (hbc : b.Base ≤ b.Cap) (hc : b.Cap < 2 ^ 63) (hr0 : 0 ≤ r)
    (hr : r ≤ b.nextCeiling) :
    0 ≤ (b.next r).1 ∧ (b.next r).1 ≤ min b.Cap (b.Base * 2 ^ b.attempt) ∧
      (b.next r).2.attempt = b.attempt + 1 ∧ b.reset.nextCeiling = b.Base := by
  have hceil := nextCeiling_le b hb hbc hc
  have h1 : (0:Int) ≤ b.Cap := le_trans (le_of_lt hb) hbc
  have h2 : (0:Int) ≤ b.Base * 2 ^ b.attempt := by positivity
  refine ⟨?_, ?_, ?_, reset_nextCeiling b hb hbc hc⟩
  · simp only [Backoff.next]
    split
    · exact le_refl 0
    · exact hr0
  · simp only [Backoff.next]
    split
    · exact le_min h1 h2
    · exact le_min (le_trans hr hceil.1) (le_trans hr hceil.2)
  · simp only [Backoff.next]
    split <;> rfl

/-- Witness for `backoff_next_bounds` at `Base = 200`, `Cap = 60000`
(the constants RunWindow uses, in milliseconds), `attempt = 3`, draw `r = 100`. -/
theorem backoff_next_bounds_witness :
    0 < (200:Int) ∧
      0 ≤ ((⟨200, 60000, 3⟩ : Backoff).next 100).1 ∧
      ((⟨200, 60000, 3⟩ : Backoff).next 100).1 ≤ min 60000 (200 * 2 ^ 3) ∧
      ((⟨200, 60000, 3⟩ : Backoff).next 100).2.attempt = 3 + 1 ∧
      (⟨200, 60000, 3⟩ : Backoff).reset.nextCeiling = 200 := by
  refine ⟨by norm_num, ?_⟩
  have h := backoff_next_bounds ⟨200, 60000, 3⟩ 100 (by norm_num) (by norm_num)
    (by norm_num) (by norm_num) (by decide)
  exact h

/-- C5 (counterexample to the claim as stated): the claim quantifies over
non-negative `Base` and `Cap`.  At `Base = 0`, `Cap = 1`, `attempt = 0` the
computed ceiling falls through to `Cap = 1`, so the draw `r = 1` (which
`rand.Int63n(2)` can produce) is returned, exceeding
`min(Cap, Base·2^0) = 0`; and after `Reset` of a `Base = 2`, `Cap = 1` state
the following ceiling is `Cap = 1`, not `Base = 2`. -/
theorem backoff_next_bounds_cex :
    (0 ≤ (1:Int) ∧ 1 ≤ (⟨0, 1, 0⟩ : Backoff).nextCeiling) ∧
      ((⟨0, 1, 0⟩ : Backoff).next 1).1 = 1 ∧
      ¬ ((⟨0, 1, 0⟩ : Backoff).next 1).1 ≤ min 1 (0 * 2 ^ 0) ∧
      (⟨2, 1, 5⟩ : Backoff).reset.nextCeiling = 1 ∧ (1:Int) ≠ 2 := by
  decide

/-- With `Cap = 0` the tautological clamp condition forces the ceiling to 0. -/
lemma nextCeiling_cap_zero (b : Backoff) (hb : b.Cap = 0) : b.nextCeiling = 0 := by
  simp only [Backoff.nextCeiling, hb]
  set w := wrap64 (b.Base * 2 ^ (if b.attempt > 62 then 62 else b.attempt)) with hw
  rcases le_or_lt w 0 with h | h
  · rw [if_pos (Or.inl h)]
  · rw [if_pos (Or.inr h)]

/-- C10: whenever `Cap = 0` (in particular the zero value of `Backoff`),
`Next` returns 0 regardless of `Base` and of the attempt count; and whenever
`Base = 0`, the computed ceiling falls through to `Cap`. -/
theorem backoff_zero_cap (b c : Backoff) (r : Int) (hb : b.Cap = 0)
    (hc : c.Base = 0) : (b.next r).1 = 0 ∧ c.nextCeiling = c.Cap := by
  constructor
  · simp only [Backoff.next, nextCeiling_cap_zero b hb]
    rw [if_pos (le_refl (0:Int))]
  · simp only [Backoff.nextCeiling, hc, zero_mul]
    have hw : wrap64 0 = 0 := by norm_num [wrap64]
    rw [hw, if_pos (Or.inl (le_refl (0:Int)))]

/-- Witness for `backoff_zero_cap`: the zero-value `Backoff` and a zero-`Base`
state with `Cap = 7`. -/
theorem backoff_zero_cap_witness :
    ((⟨5, 0, 9⟩ : Backoff).next 3).1 = 0 ∧
      (⟨0, 7, 0⟩ : Backoff).nextCeiling = 7 := by
  have h := backoff_zero_cap ⟨5, 0, 9⟩ ⟨0, 7, 0⟩ 3 rfl rfl
  simpa using h

/-! ## Highlight composer (style.go)

Byte buffers (`[]byte`) are modeled as `List Nat` with each element a byte
value.  A `layer.Entry` stores `Name = canonicalTable[curIdx]`; since the
canonical index determines the name, the embedding keeps the index itself. -/

/-- One output span: `idx` is the canonical style index whose table entry is
the emitted `Name`; `start`/`stop` are the rune offsets (`Start` inclusive,
`End` exclusive). -/
structure Entry where
  idx : Nat
  start : Nat
  stop : Nat
deriving DecidableEq, Repr

/-- The body of `applyCapture`'s loop, walking the whole array with its
position `i`: slot `i` is overwritten with `byte(idx)` exactly when
`start ≤ i < end` and the slot still holds 0 (`for i := start; i < end && i <
len(stylePerByte); i++ { if stylePerByte[i] == 0 { stylePerByte[i] = byte(idx) } }`). -/
def applyCaptureGo (sty : List Nat) (i s e idx : Nat) : List Nat :=
  match sty with
  | [] => []
  | b :: rest =>
    (if s ≤ i ∧ i < e ∧ b = 0 then idx % 256 else b) :: applyCaptureGo rest (i + 1) s e idx

/-- `applyCapture`: marks bytes `[start, end)` with `idx`, only where the slot
is still 0; a zero `idx` is a no-op.  Capture byte offsets come from
tree-sitter as unsigned integers, so they are modeled as `Nat`. -/
def applyCapture (sty : List Nat) (s e idx : Nat) : List Nat :=
  if idx = 0 then sty else applyCaptureGo sty 0 s e idx

/-- A query capture after name resolution: byte range `[start, stop)` and the
resolved canonical index `idx` (the value `lookupCaptureIdx` returned). -/
structure Capture where
  start : Nat
  stop : Nat
  idx : Nat
deriving DecidableEq, Repr

/-- `computeHighlights`' capture loop: each capture is applied in the order
supplied, via `applyCapture(stylePerByte, start, end, idx)`. -/
def applyCaptures (sty : List Nat) (caps : List Capture) : List Nat :=
  caps.foldl (fun st c => applyCapture st c.start c.stop c.idx) sty

/-- Size in bytes of the leading UTF-8 unit, as returned by Go's
`utf8.DecodeRune`: 0 on empty input, the encoded length 1–4 for a valid
encoding, and 1 for any malformed or truncated encoding. -/
def decodeRuneSize (l : List Nat) : Nat :=
  match l with
  | [] => 0
  | b0 :: rest =>
    if b0 < 0x80 then 1
    else if b0 < 0xC2 then 1
    else if b0 < 0xE0 then
      match rest with
      | b1 :: _ => if 0x80 ≤ b1 ∧ b1 ≤ 0xBF then 2 else 1
      | [] => 1
    else if b0 < 0xF0 then
      match rest with
      | b1 :: b2 :: _ =>
        if (if b0 = 0xE0 then 0xA0 else 0x80) ≤ b1 ∧
            b1 ≤ (if b0 = 0xED then 0x9F else 0xBF) ∧
            0x80 ≤ b2 ∧ b2 ≤ 0xBF then 3 else 1
      | _ => 1
    else if b0 < 0xF5 then
      match rest with
      | b1 :: b2 :: b3 :: _ =>
        if (if b0 = 0xF0 then 0x90 else 0x80) ≤ b1 ∧
            b1 ≤ (if b0 = 0xF4 then 0x8F else 0xBF) ∧
            0x80 ≤ b2 ∧ b2 ≤ 0xBF ∧ 0x80 ≤ b3 ∧ b3 ≤ 0xBF then 4 else 1
      | _ => 1
    else 1

lemma decodeRuneSize_pos (l : List Nat) (h : l ≠ []) : 0 < decodeRuneSize l := by
  cases l with
  | nil => exact absurd rfl h
  | cons b0 rest =>
    simp only [decodeRuneSize]
    repeat' split
    all_goals omega

/-- The sweep loop of `compressToEntries`.  `byteOff`, `runeOff`, `curIdx`,
`spanStart` and the accumulated `entries` mirror the Go locals; each
iteration decodes one unit, reads `stylePerByte[byteOff]`, closes/opens a
span on an index transition, then advances `byteOff += size; runeOff++`.
After the loop a still-open non-zero span is flushed. -/
def compressLoop (sty src : List Nat) (byteOff runeOff curIdx spanStart : Nat)
    (entries : List Entry) : List Entry :=
  if h : byteOff < src.length then
    let size := decodeRuneSize (src.drop byteOff)
    let idx := sty.getD byteOff 0
    if idx ≠ curIdx then
      compressLoop sty src (byteOff + size) (runeOff + 1) idx runeOff
        (if curIdx ≠ 0 then entries ++ [⟨curIdx, spanStart, runeOff⟩] else entries)
    else
      compressLoop sty src (byteOff + size) (runeOff + 1) curIdx spanStart entries
  else
    if curIdx ≠ 0 then entries ++ [⟨curIdx, spanStart, runeOff⟩] else entries
termination_by src.length - byteOff
decreasing_by
  all_goals
    have hs : 0 < decodeRuneSize (src.drop byteOff) :=
      decodeRuneSize_pos _ (by
        intro hnil
        have := List.length_drop byteOff src ▸ congrArg List.length hnil
        simp at this
        omega)
    omega

/-- `compressToEntries(stylePerByte, src)`. -/
def compressToEntries (sty src : List Nat) : List Entry :=
  compressLoop sty src 0 0 0 0 []

/-- The composer as `computeHighlights` wires it: a fresh all-zero per-byte
array of the buffer's length, the captures applied in order, then the
compression sweep. -/
def compose (caps : List Capture) (src : List Nat) : List Entry :=
  compressToEntries (applyCaptures (List.replicate src.length 0) caps) src

/-- Loop invariant of the sweep: accumulated entries are well-formed, ordered,
and closed before `spanStart`; the open span (if any) started strictly before
the current rune offset.  The result is then ordered with non-zero indices
and non-empty ranges. -/
lemma compressLoop_wf (sty src : List Nat) :
    ∀ (byteOff runeOff curIdx spanStart : Nat) (entries : List Entry),
    (∀ e ∈ entries, 0 < e.idx ∧ e.start < e.stop ∧ e.stop ≤ spanStart) →
    entries.Pairwise (fun a b => a.stop ≤ b.start) →
    spanStart ≤ runeOff →
    (curIdx ≠ 0 → spanStart < runeOff) →
    ((compressLoop sty src byteOff runeOff curIdx spanStart entries).Pairwise
        fun a b => a.stop ≤ b.start) ∧
      ∀ e ∈ compressLoop sty src byteOff runeOff curIdx spanStart entries,
        0 < e.idx ∧ e.start < e.stop := by
  intro byteOff runeOff curIdx spanStart entries
  induction byteOff, runeOff, curIdx, spanStart, entries using compressLoop.induct sty src with
  | case1 byteOff runeOff curIdx spanStart entries h size idx hne ih =>
    intro h1 h2 h3 h4
    rw [compressLoop, dif_pos h, if_pos hne]
    apply ih
    · intro e he
      by_cases hcur : curIdx ≠ 0
      · rw [dif_pos hcur, List.mem_append] at he
        rcases he with he | he
        · obtain ⟨hi, hs, hst⟩ := h1 e he
          exact ⟨hi, hs, le_trans hst h3⟩
        · rw [List.mem_singleton] at he
          subst he
          exact ⟨Nat.pos_of_ne_zero hcur, h4 hcur, le_refl _⟩
      · rw [dif_neg hcur] at he
        obtain ⟨hi, hs, hst⟩ := h1 e he
        exact ⟨hi, hs, le_trans hst h3⟩
    · by_cases hcur : curIdx ≠ 0
      · rw [dif_pos hcur, List.pairwise_append]
        refine ⟨h2, List.pairwise_singleton _ _, ?_⟩
        intro a ha b hb
        rw [List.mem_singleton] at hb
        subst hb
        exact (h1 a ha).2.2
      · rw [dif_neg hcur]
        exact h2
    · exact Nat.le_succ _
    · intro _
      exact Nat.lt_succ_self _
  | case2 byteOff runeOff curIdx spanStart entries h size idx hne ih =>
    intro h1 h2 h3 h4
    rw [compressLoop, dif_pos h, if_neg hne]
    apply ih
    · exact h1
    · exact h2
    · exact le_trans h3 (Nat.le_succ _)
    · intro hc
      exact lt_trans (h4 hc) (Nat.lt_succ_self _)
  | case3 byteOff runeOff curIdx spanStart entries h hcur =>
    intro h1 h2 h3 h4
    rw [compressLoop, dif_neg h, if_pos hcur]
    constructor
    · rw [List.pairwise_append]
      refine ⟨h2, List.pairwise_singleton _ _, ?_⟩
      intro a ha b hb
      rw [List.mem_singleton] at hb
      subst hb
      exact (h1 a ha).2.2
    · intro e he
      rw [List.mem_append] at he
      rcases he with he | he
      · exact ⟨(h1 e he).1, (h1 e he).2.1⟩
      · rw [List.mem_singleton] at he
        subst he
        exact ⟨Nat.pos_of_ne_zero hcur, h4 hcur⟩
  | case4 byteOff runeOff curIdx spanStart entries h hcur =>
    intro h1 h2 h3 h4
    rw [compressLoop, dif_neg h, if_neg hcur]
    exact ⟨h2, fun e he => ⟨(h1 e he).1, (h1 e he).2.1⟩⟩

/-- C1: for every per-byte style array matching the source buffer, the span
list returned by `compressToEntries` is well-formed: starts strictly
increase, spans do not overlap (each span ends no later than the next
starts), index 0 is never emitted, and no span is empty. -/
theorem compressToEntries_wellFormed (sty src : List Nat)
    (h : sty.length = src.length) :
    ((compressToEntries sty src).Pairwise
        fun a b => a.start < b.start ∧ a.stop ≤ b.start) ∧
      ∀ e ∈ compressToEntries sty src, e.idx ≠ 0 ∧ e.start < e.stop := by
  have hwf := compressLoop_wf sty src 0 0 0 0 []
    (by intro e he; cases he) List.Pairwise.nil (le_refl 0) (by intro hc; cases hc rfl)
  refine ⟨?_, ?_⟩
  · refine List.Pairwise.imp_of_mem ?_ hwf.1
    intro a b ha _ hab
    exact ⟨lt_of_lt_of_le (hwf.2 a ha).2 hab, hab⟩
  · intro e he
    exact ⟨Nat.pos_iff_ne_zero.mp (hwf.2 e he).1, (hwf.2 e he).2⟩

/-- Witness for `compressToEntries_wellFormed`: style array `[1,1,0,2]` over
a 4-byte ASCII buffer, giving spans `(1,0,2)` and `(2,3,4)`. -/
theorem compressToEntries_wellFormed_witness :
    ([1, 1, 0, 2] : List Nat).length = ([97, 97, 97, 97] : List Nat).length ∧
      ((compressToEntries [1, 1, 0, 2] [97, 97, 97, 97]).Pairwise
          fun a b => a.start < b.start ∧ a.stop ≤ b.start) ∧
      ∀ e ∈ compressToEntries [1, 1, 0, 2] [97, 97, 97, 97],
        e.idx ≠ 0 ∧ e.start < e.stop :=
  ⟨rfl, compressToEntries_wellFormed [1, 1, 0, 2] [97, 97, 97, 97] rfl⟩

lemma applyCaptureGo_length (sty : List Nat) :
    ∀ j s e idx, (applyCaptureGo sty j s e idx).length = sty.length := by
  induction sty with
  | nil => intro j s e idx; rfl
  | cons b rest ih =>
    intro j s e idx
    simp only [applyCaptureGo, List.length_cons, ih]

lemma applyCapture_length (sty : List Nat) (s e idx : Nat) :
    (applyCapture sty s e idx).length = sty.length := by
  unfold applyCapture
  split
  · rfl
  · exact applyCaptureGo_length sty 0 s e idx

lemma applyCaptures_length (caps : List Capture) :
    ∀ sty : List Nat, (applyCaptures sty caps).length = sty.length := by
  induction caps with
  | nil => intro sty; rfl
  | cons c cs ih =>
    intro sty
    show (applyCaptures (applyCapture sty c.start c.stop c.idx) cs).length = _
    rw [ih, applyCapture_length]

/-- A slot already holding a non-zero index is left unchanged by the loop. -/
lemma applyCaptureGo_preserves (sty : List Nat) :
    ∀ j s e idx i, sty.getD i 0 ≠ 0 →
      (applyCaptureGo sty j s e idx).getD i 0 = sty.getD i 0 := by
  induction sty with
  | nil => intro j s e idx i h; rfl
  | cons b rest ih =>
    intro j s e idx i h
    cases i with
    | zero =>
      rw [List.getD_cons_zero] at h
      simp only [applyCaptureGo, List.getD_cons_zero]
      rw [if_neg (fun hc => h hc.2.2)]
    | succ n =>
      rw [List.getD_cons_succ] at h
      simp only [applyCaptureGo, List.getD_cons_succ]
      exact ih (j + 1) s e idx n h

lemma applyCapture_preserves (sty : List Nat) (s e idx i : Nat)
    (h : sty.getD i 0 ≠ 0) :
    (applyCapture sty s e idx).getD i 0 = sty.getD i 0 := by
  unfold applyCapture
  split
  · rfl
  · exact applyCaptureGo_preserves sty 0 s e idx i h

/-- A zero slot inside the capture's byte range receives `byte(idx)`. -/
lemma applyCaptureGo_sets (sty : List Nat) :
    ∀ j s e idx i, i < sty.length → s ≤ j + i → j + i < e → sty.getD i 0 = 0 →
      (applyCaptureGo sty j s e idx).getD i 0 = idx % 256 := by
  induction sty with
  | nil => intro j s e idx i hi; simp at hi
  | cons b rest ih =>
    intro j s e idx i hi hs he h0
    cases i with
    | zero =>
      rw [List.getD_cons_zero] at h0
      simp only [applyCaptureGo, List.getD_cons_zero]
      rw [if_pos ⟨by omega, by omega, h0⟩]
    | succ n =>
      rw [List.getD_cons_succ] at h0
      simp only [applyCaptureGo, List.getD_cons_succ]
      exact ih (j + 1) s e idx n (by simpa using hi) (by omega) (by omega) h0

lemma applyCapture_sets (sty : List Nat) (s e idx i : Nat) (hi : i < sty.length)
    (hs : s ≤ i) (he : i < e) (h0 : sty.getD i 0 = 0) (hidx : idx ≠ 0) :
    (applyCapture sty s e idx).getD i 0 = idx % 256 := by
  unfold applyCapture
  rw [if_neg hidx]
  exact applyCaptureGo_sets sty 0 s e idx i hi (by omega) (by omega) h0

lemma applyCaptures_preserves (caps : List Capture) :
    ∀ (sty : List Nat) (i : Nat), sty.getD i 0 ≠ 0 →
      (applyCaptures sty caps).getD i 0 = sty.getD i 0 := by
  induction caps with
  | nil => intro sty i _; rfl
  | cons c cs ih =>
    intro sty i h
    have h1 := applyCapture_preserves sty c.start c.stop c.idx i h
    show (applyCaptures (applyCapture sty c.start c.stop c.idx) cs).getD i 0 = _
    rw [ih _ i (h1.symm ▸ h), h1]

lemma replicate_zero_getD (n i : Nat) : (List.replicate n (0:Nat)).getD i 0 = 0 := by
  induction n generalizing i with
  | zero => rfl
  | succ m ih =>
    cases i with
    | zero => rfl
    | succ k => simpa [List.replicate_succ] using ih k

/-- C2: `applyCapture` writes only into slots that are still 0, so a byte
already assigned a non-zero style index keeps that index under any further
sequence of captures; in particular, over the overlap of two captures applied
to a fresh array, the earlier capture's index is the one that sticks. -/
theorem applyCaptures_first_match_wins (sty : List Nat) (caps : List Capture)
    (i n : Nat) (c1 c2 : Capture) (h : sty.getD i 0 ≠ 0) (hin : i < n)
    (h1s : c1.start ≤ i) (h1e : i < c1.stop) (h2s : c2.start ≤ i)
    (h2e : i < c2.stop) (hidx : c1.idx % 256 ≠ 0) :
    (applyCaptures sty caps).getD i 0 = sty.getD i 0 ∧
      (applyCaptures (List.replicate n 0) [c1, c2]).getD i 0 = c1.idx % 256 := by
  constructor
  · exact applyCaptures_preserves caps sty i h
  · have hlen : i < (List.replicate n (0:Nat)).length := by
      simpa [List.length_replicate] using hin
    have hid1 : c1.idx ≠ 0 := by
      intro hz
      exact hidx (by simp [hz])
    have hfirst : (applyCapture (List.replicate n 0) c1.start c1.stop c1.idx).getD i 0 =
        c1.idx % 256 :=
      applyCapture_sets _ _ _ _ _ hlen h1s h1e (replicate_zero_getD n i) hid1
    show (applyCaptures
        (applyCapture (List.replicate n 0) c1.start c1.stop c1.idx) [c2]).getD i 0 = _
    rw [applyCaptures_preserves [c2] _ i (hfirst.symm ▸ hidx), hfirst]

/-- Witness for `applyCaptures_first_match_wins`: slot 1 holds 7 and is kept;
captures `(0,2,idx 4)` then `(1,3,idx 9)` overlap at byte 1, which ends up
with the first capture's index 4. -/
theorem applyCaptures_first_match_wins_witness :
    (([0, 7] : List Nat).getD 1 0 ≠ 0 ∧ 1 < 3 ∧ (4:Nat) % 256 ≠ 0) ∧
      (applyCaptures [0, 7] [⟨0, 2, 3⟩]).getD 1 0 = ([0, 7] : List Nat).getD 1 0 ∧
      (applyCaptures (List.replicate 3 0) [⟨0, 2, 4⟩, ⟨1, 3, 9⟩]).getD 1 0 = 4 % 256 :=
  ⟨⟨by decide, by decide, by decide⟩,
    applyCaptures_first_match_wins [0, 7] [⟨0, 2, 3⟩] 1 3 ⟨0, 2, 4⟩ ⟨1, 3, 9⟩
      (by decide) (by decide) (by decide) (by decide) (by decide) (by decide) (by decide)⟩

lemma decodeRuneSize_bounds (b0 : Nat) (rest : List Nat) :
    1 ≤ decodeRuneSize (b0 :: rest) ∧ decodeRuneSize (b0 :: rest) ≤ 4 := by
  simp only [decodeRuneSize]
  repeat' split
  all_goals omega

/-- A byte that cannot begin any UTF-8 encoding (a bare continuation byte,
an overlong-only C0/C1 lead, or a lead above F4) decodes as a single-width
unit, whatever follows. -/
lemma decodeRuneSize_malformed (b : Nat) (rest : List Nat) (hb : 0x80 ≤ b)
    (hbad : b ≤ 0xC1 ∨ 0xF5 ≤ b) : decodeRuneSize (b :: rest) = 1 := by
  simp only [decodeRuneSize]
  rw [if_neg (by omega)]
  rcases hbad with hlow | hhigh
  · rw [if_pos (by omega)]
  · rw [if_neg (by omega), if_neg (by omega), if_neg (by omega), if_neg (by omega)]

/-- A multi-byte lead with nothing after it (truncated unit at end of buffer)
decodes as a single-width unit. -/
lemma decodeRuneSize_truncated (b : Nat) (hb : 0xC2 ≤ b) :
    decodeRuneSize [b] = 1 := by
  simp only [decodeRuneSize]
  repeat' split
  all_goals rfl

/-- C3: for every capture list (byte ranges past the buffer included) and
every source buffer (truncated or malformed units included), the composer is
total and returns a well-formed span list; the per-byte array it sweeps has
exactly the buffer's length, so `stylePerByte[byteOff]` with
`byteOff < len(src)` never reads out of bounds; an undecodable or truncated
byte advances the sweep by exactly one byte, and every unit size is in 1..4,
so the sweep always terminates. -/
theorem composer_encoding_safety (caps : List Capture) (src : List Nat)
    (b b' : Nat) (rest : List Nat) (hb : 0x80 ≤ b)
    (hbad : b ≤ 0xC1 ∨ 0xF5 ≤ b) (hb' : 0xC2 ≤ b') :
    ((compose caps src).Pairwise fun a c => a.stop ≤ c.start) ∧
      (∀ e ∈ compose caps src, 0 < e.idx ∧ e.start < e.stop) ∧
      (applyCaptures (List.replicate src.length 0) caps).length = src.length ∧
      decodeRuneSize (b :: rest) = 1 ∧ decodeRuneSize [b'] = 1 ∧
      ∀ b0 rest0, 1 ≤ decodeRuneSize (b0 :: rest0) ∧
        decodeRuneSize (b0 :: rest0) ≤ 4 := by
  have hwf := compressLoop_wf (applyCaptures (List.replicate src.length 0) caps) src
    0 0 0 0 [] (by intro e he; cases he) List.Pairwise.nil (le_refl 0)
    (by intro hc; cases hc rfl)
  exact ⟨hwf.1, hwf.2,
    (applyCaptures_length caps _).trans (List.length_replicate _ _),
    decodeRuneSize_malformed b rest hb hbad,
    decodeRuneSize_truncated b' hb',
    decodeRuneSize_bounds⟩

/-- Witness for `composer_encoding_safety`: a capture reaching past the
3-byte buffer `[0x61, 0xE2, 0x82]`, which ends in a truncated 3-byte unit;
`b = 0x80` is a bare continuation byte, `b' = 0xE2` a truncated lead. -/
theorem composer_encoding_safety_witness :
    (0x80 ≤ 0x80 ∧ (0x80 ≤ 0xC1 ∨ 0xF5 ≤ 0x80) ∧ 0xC2 ≤ 0xE2) ∧
      (((compose [⟨0, 5, 3⟩] [0x61, 0xE2, 0x82]).Pairwise
          fun a c => a.stop ≤ c.start) ∧
        (∀ e ∈ compose [⟨0, 5, 3⟩] [0x61, 0xE2, 0x82],
          0 < e.idx ∧ e.start < e.stop) ∧
        (applyCaptures (List.replicate ([0x61, 0xE2, 0x82] : List Nat).length 0)
            [⟨0, 5, 3⟩]).length = ([0x61, 0xE2, 0x82] : List Nat).length ∧
        decodeRuneSize (0x80 :: []) = 1 ∧ decodeRuneSize [0xE2] = 1 ∧
        ∀ b0 rest0, 1 ≤ decodeRuneSize (b0 :: rest0) ∧
          decodeRuneSize (b0 :: rest0) ≤ 4) :=
  ⟨⟨by norm_num, Or.inl (by norm_num), by norm_num⟩,
    composer_encoding_safety [⟨0, 5, 3⟩] [0x61, 0xE2, 0x82] 0x80 0xE2 []
      (by norm_num) (Or.inl (by norm_num)) (by norm_num)⟩

/-! ## Capture-name resolution (style.go, `lookupCaptureIdx`)

Go strings are modeled as `List Char`.  The registered-name table
`canonicalIndex` (built at init from the embedded token_names.txt, which is
not part of the sources here) is abstracted as an arbitrary lookup function
`index : List Char → Option Nat`; `lookupCaptureIdx`'s algorithm is what the
claim is about. -/

/-- `strings.TrimPrefix(captureName, "@")`: drop one leading at sign. -/
def trimAtSign : List Char → List Char
  | '@' :: rest => rest
  | l => l

/-- `strings.LastIndex(name, ".")`: index of the last dot, if any. -/
def lastIndexDot : List Char → Option Nat
  | [] => none
  | c :: rest =>
    match lastIndexDot rest with
    | some i => some (i + 1)
    | none => if c = '.' then some 0 else none

lemma lastIndexDot_lt (l : List Char) :
    ∀ d, lastIndexDot l = some d → d < l.length := by
  induction l with
  | nil => intro d hd; cases hd
  | cons c rest ih =>
    intro d hd
    simp only [lastIndexDot] at hd
    rcases hrec : lastIndexDot rest with _ | i
    · rw [hrec] at hd
      dsimp only at hd
      split at hd
      · cases hd
        simp
      · cases hd
    · rw [hrec] at hd
      dsimp only at hd
      cases hd
      have := ih i hrec
      simp only [List.length_cons]
      omega

/-- The fallback loop of `lookupCaptureIdx`: look the name up; if absent,
truncate at the last dot and repeat; with no dot left, return 0. -/
def lookupLoop (index : List Char → Option Nat) (name : List Char) : Nat :=
  match index name with
  | some idx => idx
  | none =>
    match hd : lastIndexDot name with
    | none => 0
    | some d => lookupLoop index (name.take d)
termination_by name.length
decreasing_by
  have := lastIndexDot_lt name d hd
  simp only [List.length_take]
  omega

/-- `lookupCaptureIdx`: trim a leading `@`, then run the fallback loop. -/
def lookupCaptureIdx (index : List Char → Option Nat) (captureName : List Char) : Nat :=
  lookupLoop index (trimAtSign captureName)

lemma lookupLoop_found (index : List Char → Option Nat) (name : List Char)
    (i : Nat) (h : index name = some i) : lookupLoop index name = i := by
  rw [lookupLoop, h]

lemma lookupLoop_miss (index : List Char → Option Nat) (name : List Char)
    (d : Nat) (h : index name = none) (hd : lastIndexDot name = some d) :
    lookupLoop index name = lookupLoop index (name.take d) := by
  rw [lookupLoop, h]
  dsimp only
  split
  · rename_i heq
    rw [heq] at hd
    cases hd
  · rename_i d' heq
    rw [heq] at hd
    cases hd
    rfl

lemma lookupLoop_end (index : List Char → Option Nat) (name : List Char)
    (h : index name = none) (hd : lastIndexDot name = none) :
    lookupLoop index name = 0 := by
  rw [lookupLoop, h]
  dsimp only
  split
  · rfl
  · rename_i d' heq
    rw [heq] at hd
    cases hd

lemma lastIndexDot_none (l : List Char) (h : '.' ∉ l) : lastIndexDot l = none := by
  induction l with
  | nil => rfl
  | cons c rest ih =>
    have hc : c ≠ '.' := fun hx => h (hx ▸ List.mem_cons_self c rest)
    have hr : '.' ∉ rest := fun hx => h (List.mem_cons_of_mem c hx)
    simp only [lastIndexDot, ih hr]
    rw [if_neg hc]

lemma lastIndexDot_append (u v : List Char) (hv : '.' ∉ v) :
    lastIndexDot (u ++ '.' :: v) = some u.length := by
  induction u with
  | nil =>
    simp [lastIndexDot, lastIndexDot_none v hv]
  | cons c rest ih =>
    simp only [List.cons_append, lastIndexDot, List.append_eq, ih, List.length_cons]

/-- C4: `lookupCaptureIdx` on `"@a.b.c"` tries `"a.b.c"`, then `"a.b"`, then
`"a"` in that order and returns the first registered index, returning 0 when
no fallback level is registered; on a dot-free `"@a"` it returns the
registered index or 0. -/
theorem lookupCaptureIdx_hierarchical (index : List Char → Option Nat)
    (a b c : List Char) (ha : '.' ∉ a) (hb : '.' ∉ b) (hc : '.' ∉ c) :
    (lookupCaptureIdx index ('@' :: ((a ++ '.' :: b) ++ '.' :: c)) =
      match index ((a ++ '.' :: b) ++ '.' :: c), index (a ++ '.' :: b), index a with
      | some i, _, _ => i
      | none, some i, _ => i
      | none, none, some i => i
      | none, none, none => 0) ∧
    lookupCaptureIdx index ('@' :: a) = (index a).getD 0 := by
  have hab : '.' ∉ a ++ '.' :: b → False := by
    intro hx
    exact absurd (List.mem_append.mpr (Or.inr (List.mem_cons_self _ _))) hx
  constructor
  · show lookupLoop index ((a ++ '.' :: b) ++ '.' :: c) = _
    rcases h1 : index ((a ++ '.' :: b) ++ '.' :: c) with _ | i
    · rw [lookupLoop_miss index _ _ h1 (lastIndexDot_append _ c hc),
        List.take_left]
      rcases h2 : index (a ++ '.' :: b) with _ | i
      · rw [lookupLoop_miss index _ _ h2 (lastIndexDot_append a b hb),
          List.take_left]
        rcases h3 : index a with _ | i
        · rw [lookupLoop_end index a h3 (lastIndexDot_none a ha)]
        · rw [lookupLoop_found index a i h3]
      · rw [lookupLoop_found index _ i h2]
    · rw [lookupLoop_found index _ i h1]
  · show lookupLoop index a = _
    rcases h3 : index a with _ | i
    · rw [lookupLoop_end index a h3 (lastIndexDot_none a ha)]
      rfl
    · rw [lookupLoop_found index a i h3]
      rfl

/-- Witness for `lookupCaptureIdx_hierarchical`: with only `"fn"` registered
(at index 8), `"@fn.m.q"` falls back through `"fn.m.q"` and `"fn.m"` to
`"fn"`, and `"@fn"` resolves directly. -/
theorem lookupCaptureIdx_hierarchical_witness :
    ('.' ∉ (['f', 'n'] : List Char) ∧ '.' ∉ (['m'] : List Char) ∧
        '.' ∉ (['q'] : List Char)) ∧
      (lookupCaptureIdx (fun s => if s = ['f', 'n'] then some 8 else none)
          ('@' :: ((['f', 'n'] ++ '.' :: ['m']) ++ '.' :: ['q'])) =
        match (fun (s : List Char) => if s = ['f', 'n'] then some 8 else none)
            ((['f', 'n'] ++ '.' :: ['m']) ++ '.' :: ['q']),
          (fun (s : List Char) => if s = ['f', 'n'] then some 8 else none)
            (['f', 'n'] ++ '.' :: ['m']),
          (fun (s : List Char) => if s = ['f', 'n'] then some 8 else none)
            ['f', 'n'] with
        | some i, _, _ => i
        | none, some i, _ => i
        | none, none, some i => i
        | none, none, none => 0) ∧
      lookupCaptureIdx (fun s => if s = ['f', 'n'] then some 8 else none)
          ('@' :: ['f', 'n']) =
        ((fun (s : List Char) => if s = ['f', 'n'] then some 8 else none)
          ['f', 'n']).getD 0 :=
  ⟨⟨by decide, by decide, by decide⟩,
    lookupCaptureIdx_hierarchical (fun s => if s = ['f', 'n'] then some 8 else none)
      ['f', 'n'] ['m'] ['q'] (by decide) (by decide) (by decide)⟩

/-! ## Per-window session (window.go)

`runWindowOnce`'s event loop is a `select` over four channels; we model it as
a deterministic step function on the loop's local state driven by the events
the select can observe.  The unwind behaviour (which compositor-layer calls
run when the session exits, and how `RunWindow` classifies the returned
error) is modeled from the function's return paths and deferred calls. -/

/-- `debounceDuration` (window.go line 18), in milliseconds. -/
def debounceDurationMs : Nat := 200

/-- The state of `runWindowOnce`'s watch loop: the `pending` flag, whether the
single-shot timer is armed, the duration it was armed with, and how many
recomputes (`doHighlight` calls from the timer branch) have run. -/
structure DebounceState where
  pending : Bool
  timerArmed : Bool
  timerDur : Nat
  recomputes : Nat
deriving DecidableEq, Repr

/-- Events the select loop can observe: an edit notification on `lines`
(an `I`/`D` log event), or the debounce timer firing. -/
inductive SessionEvent where
  | edit : SessionEvent
  | timerFire : SessionEvent
deriving DecidableEq, Repr

/-- One iteration of the select loop: on `<-lines`, only if `!pending` does it
`timer.Reset(debounceDuration); pending = true`; on `<-timer.C` (only possible
while the single-shot timer is armed) it clears `pending`, disarms, and runs
one full recompute (`doHighlight`). -/
def debounceStep (s : DebounceState) (e : SessionEvent) : DebounceState :=
  match e with
  | .edit =>
    if s.pending then s
    else { s with pending := true, timerArmed := true, timerDur := debounceDurationMs }
  | .timerFire =>
    if s.timerArmed then
      { s with pending := false, timerArmed := false, recomputes := s.recomputes + 1 }
    else s

/-- Run the loop over a sequence of observed events. -/
def debounceRun (s : DebounceState) (es : List SessionEvent) : DebounceState :=
  es.foldl debounceStep s

lemma debounceRun_edit_saturated (k : Nat) (s : DebounceState)
    (h : s.pending = true) :
    debounceRun s (List.replicate k .edit) = s := by
  induction k with
  | zero => rfl
  | succ m ih =>
    show debounceRun (debounceStep s .edit) (List.replicate m .edit) = s
    rw [show debounceStep s .edit = s by simp [debounceStep, h]]
    exact ih

/-- C8: in the quiescent state after the last recompute, a burst of `n ≥ 1`
edit notifications followed by the timer firing performs exactly one
recompute: the first notification arms the 200 ms single-shot timer and sets
`pending`, every further notification leaves the state untouched (the timer
is not re-armed), and the fire clears `pending` and adds exactly one
recompute. -/
theorem debounce_coalesces (n r : Nat) (h : 1 ≤ n) :
    debounceRun ⟨false, false, debounceDurationMs, r⟩
        (List.replicate n .edit ++ [.timerFire]) =
      ⟨false, false, debounceDurationMs, r + 1⟩ ∧
    (∀ s : DebounceState, s.pending = true → debounceStep s .edit = s) := by
  constructor
  · obtain ⟨m, rfl⟩ : ∃ m, n = m + 1 := ⟨n - 1, by omega⟩
    rw [List.replicate_succ]
    show debounceRun (debounceStep ⟨false, false, debounceDurationMs, r⟩ .edit)
      (List.replicate m .edit ++ [.timerFire]) = _
    rw [show debounceStep ⟨false, false, debounceDurationMs, r⟩ .edit =
      ⟨true, true, debounceDurationMs, r⟩ from rfl]
    show debounceRun _ (List.replicate m .edit ++ [.timerFire]) = _
    rw [debounceRun, List.foldl_append,
      show List.foldl debounceStep ⟨true, true, debounceDurationMs, r⟩
          (List.replicate m .edit) = ⟨true, true, debounceDurationMs, r⟩ from
        debounceRun_edit_saturated m _ rfl]
    rfl
  · intro s hs
    simp [debounceStep, hs]

/-- Witness for `debounce_coalesces`: three edits in one quiet period, then
the timer fires — one recompute. -/
theorem debounce_coalesces_witness :
    1 ≤ 3 ∧
      debounceRun ⟨false, false, debounceDurationMs, 0⟩
          (List.replicate 3 .edit ++ [.timerFire]) =
        ⟨false, false, debounceDurationMs, 0 + 1⟩ ∧
      (∀ s : DebounceState, s.pending = true → debounceStep s .edit = s) :=
  ⟨by norm_num, debounce_coalesces 3 0 (by norm_num)⟩

/-- The ways `runWindowOnce` can come to an end. -/
inductive ExitReason where
  | ctxCancelled : ExitReason
  | cleanLogEOF : ExitReason
  | logReadError : ExitReason
  | rehighlightError : ExitReason
deriving DecidableEq, Repr

/-- Operations `runWindowOnce` can perform on its compositor layer while
unwinding. -/
inductive LayerOp where
  | clear : LayerOp
  | delete : LayerOp
deriving DecidableEq, Repr

/-- The layer operations `runWindowOnce` performs when it exits for the given
reason: the single deferred call `defer sl.Delete()` (window.go line 122)
runs on every return path, and no return path calls a clear operation. -/
def runWindowOnceLayerOps : ExitReason → List LayerOp :=
  fun _ => [LayerOp.delete]

/-- The error classes `runWindowOnce` returns: `ctx.Err()` on cancellation,
`errWindowClosed` on clean log EOF (`err == nil` from the scanner), and a
wrapped transient error otherwise. -/
inductive SessionErr where
  | ctxErr : SessionErr
  | windowClosed : SessionErr
  | transient : SessionErr
deriving DecidableEq, Repr

/-- The error value `runWindowOnce` returns for each exit reason
(window.go lines 171–194). -/
def runWindowOnceResult : ExitReason → SessionErr
  | .ctxCancelled => .ctxErr
  | .cleanLogEOF => .windowClosed
  | .logReadError => .transient
  | .rehighlightError => .transient

/-- What `RunWindow`'s switch does with the session error (window.go lines
49–63): `errWindowClosed` (or nil) means the window closed — log and return
normally; a context error means cancellation — return; anything else is
retried after a backoff wait. -/
inductive RetryDecision where
  | exitNormal : RetryDecision
  | exitCancelled : RetryDecision
  | retry : RetryDecision
deriving DecidableEq, Repr

def runWindowDecision : SessionErr → RetryDecision
  | .windowClosed => .exitNormal
  | .ctxErr => .exitCancelled
  | .transient => .retry

/-- C6 (counterexample to the claim as stated): on clean end of the edit
stream the session DELETES the layer — the deferred `sl.Delete()` runs on
this return path like every other — and performs no clear operation, contrary
to the claim that the layer is cleared but not deleted. -/
theorem session_clean_close_cex :
    LayerOp.delete ∈ runWindowOnceLayerOps ExitReason.cleanLogEOF ∧
      LayerOp.clear ∉ runWindowOnceLayerOps ExitReason.cleanLogEOF := by
  decide

/-- C6 (amended): the session deletes (never merely clears) its compositor
layer on every exit — clean end-of-stream and cancellation alike — and on
clean end-of-stream it exits normally (returns `errWindowClosed`, which
`RunWindow` treats as "window closed"), while a context error makes
`RunWindow` return without retrying. -/
theorem session_exit_layer_behavior :
    (∀ reason, runWindowOnceLayerOps reason = [LayerOp.delete] ∧
      LayerOp.clear ∉ runWindowOnceLayerOps reason) ∧
      runWindowDecision (runWindowOnceResult .cleanLogEOF) = .exitNormal ∧
      runWindowDecision (runWindowOnceResult .ctxCancelled) = .exitCancelled ∧
      runWindowDecision (runWindowOnceResult .logReadError) = .retry := by
  refine ⟨fun reason => ⟨rfl, ?_⟩, rfl, rfl, rfl⟩
  cases reason <;> decide

/-- One runWindowOnce invocation as RunWindow's loop sees it: did it fail
with a retryable error, and did it get past the initial highlight before
doing so.  The second field exists because the claim refers to it; the code
returns no such information to `RunWindow`. -/
structure SessionResult where
  failed : Bool
  initialHighlightOk : Bool
deriving DecidableEq, Repr

/-- The ceilings of the successive `bo.Next()` calls `RunWindow`'s loop makes
(window.go lines 46–64): one per failed session, on a `Backoff` value that is
threaded through unchanged except for `Next`'s own `attempt++`; a non-failed
result (window closed or cancellation) ends the loop. -/
def retryCeilings (bo : Backoff) : List SessionResult → List Int
  | [] => []
  | res :: rest =>
    if res.failed then
      bo.nextCeiling :: retryCeilings { bo with attempt := bo.attempt + 1 } rest
    else []

/-- Number of leading failed sessions (the retries the loop performs). -/
def failedRunLen : List SessionResult → Nat
  | [] => 0
  | res :: rest => if res.failed then failedRunLen rest + 1 else 0

/-- C7 (counterexample to the claim as stated): with the `RunWindow` backoff
`{Base: 200ms, Cap: 1min}`, a first session that fails before its initial
highlight and a second session that completes the initial highlight and then
fails give retry ceilings `[200, 400]`: the retry after the
successful-highlight session uses the grown ceiling 400, not the base 200 the
claim's reset would produce. -/
theorem retry_reset_cex :
    retryCeilings ⟨200, 60000, 0⟩
        [⟨true, false⟩, ⟨true, true⟩] = [200, 400] ∧ (400 : Int) ≠ 200 := by
  constructor
  · show (⟨200, 60000, 0⟩ : Backoff).nextCeiling ::
        (⟨200, 60000, 1⟩ : Backoff).nextCeiling :: [] = [200, 400]
    decide
  · decide

/-- C7 (amended): `RunWindow` never resets the `Backoff`: the ceiling of the
`k`-th retry depends only on `k` (and the initial state) — it is
`nextCeiling` at attempt `attempt₀ + k` — and in particular is independent of
whether any session completed a successful initial highlight before failing. -/
theorem retry_never_resets (bo : Backoff) (rs : List SessionResult) :
    retryCeilings bo rs = (List.range (failedRunLen rs)).map
      (fun k => Backoff.nextCeiling ⟨bo.Base, bo.Cap, bo.attempt + k⟩) := by
  have hcons : ∀ (b : Backoff) (res : SessionResult) (rest : List SessionResult),
      retryCeilings b (res :: rest) = if res.failed then
        b.nextCeiling :: retryCeilings { b with attempt := b.attempt + 1 } rest
      else [] := fun _ _ _ => rfl
  have hlen : ∀ (res : SessionResult) (rest : List SessionResult),
      failedRunLen (res :: rest) =
        if res.failed then failedRunLen rest + 1 else 0 := fun _ _ => rfl
  induction rs generalizing bo with
  | nil => rfl
  | cons res rest ih =>
    by_cases hf : res.failed
    · rw [hcons, hlen, if_pos hf, if_pos hf,
        List.range_succ_eq_map, List.map_cons, ih]
      refine congrArg₂ _ ?_ ?_
      · show bo.nextCeiling = Backoff.nextCeiling ⟨bo.Base, bo.Cap, bo.attempt + 0⟩
        rw [Nat.add_zero]
      · rw [List.map_map]
        refine List.map_congr_left ?_
        intro k _
        show Backoff.nextCeiling ⟨bo.Base, bo.Cap, (bo.attempt + 1) + k⟩ =
          Backoff.nextCeiling ⟨bo.Base, bo.Cap, bo.attempt + (k + 1)⟩
        rw [show (bo.attempt + 1) + k = bo.attempt + (k + 1) by omega]
    · rw [hcons, hlen, if_neg hf, if_neg hf]
      rfl

/-! ## Shebang-based language detection (`shebanInterpreter`,
`langIDForInterpreter`)

Go strings are modeled as `List Char`.  `strings.Fields` splits on
whitespace (the ASCII space characters relevant here; shebang lines contain
no exotic Unicode spaces), `filepath.Base` takes the path's last element. -/

/-- ASCII whitespace as recognized by `unicode.IsSpace` (space, tab, newline,
vertical tab, form feed, carriage return). -/
def isSpaceChar (c : Char) : Bool :=
  c = ' ' ∨ c = '\t' ∨ c = '\n' ∨ c = '\x0b' ∨ c = '\x0c' ∨ c = '\r'

/-- Worker for `fields`: accumulates the current word (reversed). -/
def fieldsAux : List Char → List Char → List (List Char)
  | [], acc => if acc = [] then [] else [acc.reverse]
  | c :: rest, acc =>
    if isSpaceChar c then
      if acc = [] then fieldsAux rest [] else acc.reverse :: fieldsAux rest []
    else fieldsAux rest (c :: acc)

/-- `strings.Fields`: the whitespace-separated words of the string. -/
def fields (l : List Char) : List (List Char) := fieldsAux l []

/-- `filepath.Base`: empty path gives ".", otherwise trailing slashes are
dropped and the element after the last remaining slash is returned (all
slashes gives "/"). -/
def filepathBase (l : List Char) : List Char :=
  if l = [] then ['.']
  else
    let l1 := (l.reverse.dropWhile (fun c => c = '/')).reverse
    if l1 = [] then ['/']
    else (l1.reverse.takeWhile (fun c => c ≠ '/')).reverse

/-- `shebanInterpreter`: on a `#!` line, split the remainder into fields; if
the first field's base name is `env`, skip flag fields (leading `-`) and
return the base name of the first plain field; otherwise return the first
field's base name.  Non-shebang lines give the empty name. -/
def shebanInterpreter (line : List Char) : List Char :=
  if line.take 2 = ['#', '!'] then
    match fields (line.drop 2) with
    | [] => []
    | f0 :: fs =>
      if filepathBase f0 = ['e', 'n', 'v'] then
        match fs.find? (fun f => f.head? != some '-') with
        | some f => filepathBase f
        | none => []
      else filepathBase f0
  else []

/-- The `shebangs` map: interpreter base-name → language ID, as the
association list written in the source. -/
def shebangs : List (List Char × List Char) :=
  [("ash".toList, "bash".toList), ("bash".toList, "bash".toList),
   ("dash".toList, "bash".toList), ("fish".toList, "bash".toList),
   ("ksh".toList, "bash".toList), ("sh".toList, "bash".toList),
   ("zsh".toList, "bash".toList),
   ("python".toList, "python".toList), ("python2".toList, "python".toList),
   ("python3".toList, "python".toList),
   ("bun".toList, "javascript".toList), ("deno".toList, "javascript".toList),
   ("node".toList, "javascript".toList), ("nodejs".toList, "javascript".toList),
   ("ts-node".toList, "javascript".toList),
   ("java".toList, "java".toList), ("jbang".toList, "java".toList),
   ("amm".toList, "scala".toList), ("scala".toList, "scala".toList),
   ("scala3".toList, "scala".toList),
   ("rust-script".toList, "rust".toList)]

/-- `strings.TrimRightFunc(name, r == '.' || '0' <= r <= '9')`: strip the
trailing version suffix of digits and dots. -/
def stripVersionSuffix (name : List Char) : List Char :=
  (name.reverse.dropWhile (fun r => r = '.' ∨ ('0' ≤ r ∧ r ≤ '9'))).reverse

/-- `langIDForInterpreter`: exact map lookup first; on a miss, strip the
trailing version suffix and (if that changed the name and left it non-empty)
look up again; otherwise the empty ID. -/
def langIDForInterpreter (name : List Char) : List Char :=
  match List.lookup name shebangs with
  | some id => id
  | none =>
    if stripVersionSuffix name ≠ [] ∧ stripVersionSuffix name ≠ name then
      match List.lookup (stripVersionSuffix name) shebangs with
      | some id => id
      | none => []
    else []

/-- `detectByShebang` down to the language-ID level: the empty ID stands for
"no language" (`langByID("")` is nil). -/
def resolveShebangLangID (line : List Char) : List Char :=
  let interp := shebanInterpreter line
  if interp = [] then [] else langIDForInterpreter interp

/-- C9: interpreter-line resolution strips an `env` indirection and its flags
(`"#!/usr/bin/env -S scala -classpath lib"` resolves to the interpreter
`"scala"`), strips a trailing version suffix of digits and dots
(`"python3.11"` resolves to language ID `"python"`); a line that is not a
shebang resolves to no language, and an interpreter registered at no
fallback level (with or without its version suffix) yields no language ID. -/
theorem shebang_resolution (line n : List Char)
    (hline : line.take 2 ≠ ['#', '!'])
    (hn1 : List.lookup n shebangs = none)
    (hn2 : List.lookup (stripVersionSuffix n) shebangs = none) :
    shebanInterpreter ("#!/usr/bin/env -S scala -classpath lib".toList) =
        "scala".toList ∧
      langIDForInterpreter ("python3.11".toList) = "python".toList ∧
      resolveShebangLangID ("#!/usr/bin/env python3.11".toList) =
        "python".toList ∧
      resolveShebangLangID line = [] ∧
      langIDForInterpreter n = [] := by
  refine ⟨by decide, by decide, by decide, ?_, ?_⟩
  · show (if shebanInterpreter line = [] then []
      else langIDForInterpreter (shebanInterpreter line)) = []
    rw [show shebanInterpreter line = [] by
      rw [shebanInterpreter, if_neg hline]]
    rfl
  · simp only [langIDForInterpreter, hn1]
    split
    · simp only [hn2]
    · rfl

/-- Witness for `shebang_resolution`: the comment line `"# hi"` is not a
shebang, and `"brainfuck"` is registered at no fallback level. -/
theorem shebang_resolution_witness :
    (("# hi".toList).take 2 ≠ ['#', '!'] ∧
        List.lookup ("brainfuck".toList) shebangs = none ∧
        List.lookup (stripVersionSuffix ("brainfuck".toList)) shebangs = none) ∧
      shebanInterpreter ("#!/usr/bin/env -S scala -classpath lib".toList) =
          "scala".toList ∧
        langIDForInterpreter ("python3.11".toList) = "python".toList ∧
        resolveShebangLangID ("#!/usr/bin/env python3.11".toList) =
          "python".toList ∧
        resolveShebangLangID ("# hi".toList) = [] ∧
        langIDForInterpreter ("brainfuck".toList) = [] :=
  ⟨⟨by decide, by decide, by decide⟩,
    shebang_resolution ("# hi".toList) ("brainfuck".toList)
      (by decide) (by decide) (by decide)⟩

end AcmeTS
